import Mathlib

/-!
Verification of the cdk-agc asset-cleanup core (`src/asset-cleanup.ts`,
`src/docker-cleanup.ts`, `src/temp-cleanup.ts`, `src/utils.ts`) against its
natural-language specification.

Filesystem paths are modelled as lists of name components relative to the
output root (`[]` is the output root itself).  The filesystem is a finite
tree of files, directories and other node kinds (FIFOs, sockets, ...).
Times are rationals holding Node's millisecond timestamps; `keepHours` is a
rational as well.  Fallible filesystem operations (a rejected `fs.stat`)
surface as `Except Unit`.
-/

namespace CdkAgc

/-- A filesystem path, as components relative to the output root. -/
abbrev Path := List String

/-- Model of `String.prototype.startsWith` on names. -/
def nameStartsWith (s pat : String) : Bool :=
  pat.data.isPrefixOf s.data

/-- Model of `String.prototype.endsWith` on names. -/
def nameEndsWith (s pat : String) : Bool :=
  pat.data.isSuffixOf s.data

/-- Model of Node `path.join(base, rel)`: the relative path is a list of
components, where `".."` drops the last component of the accumulated path
and `"."` is skipped. -/
def normJoin (base : Path) (rel : List String) : Path :=
  rel.foldl
    (fun acc c =>
      if c = ".." then acc.dropLast
      else if c = "." then acc
      else acc ++ [c])
    base

/-- Parsed content of a `*.assets.json` descriptor: the `source.path` of each
entry of the `files` object and the `source.directory` of each entry of the
`dockerImages` object, in iteration order.  `none` models an entry without a
`source.path` (resp. `source.directory`).  Relative paths are kept as
component lists. -/
structure AssetsDoc where
  files : List (Option (List String))
  dockerImages : List (Option (List String))
deriving DecidableEq

mutual
/-- A filesystem node: a regular file (byte size, mtime in ms, and the result
of parsing it as an assets descriptor: `none` models unparseable content), a
directory (mtime and named children), or any other node kind. -/
inductive FSNode where
  | file (size : Nat) (mtimeMs : Rat) (doc : Option AssetsDoc) : FSNode
  | dir (mtimeMs : Rat) (entries : FSEntries) : FSNode
  | other (mtimeMs : Rat) : FSNode

/-- Named directory entries. -/
inductive FSEntries where
  | nil : FSEntries
  | cons (name : String) (node : FSNode) (rest : FSEntries) : FSEntries
end

/-- The `mtimeMs` field of `fs.stat`. -/
def FSNode.mtimeMs : FSNode → Rat
  | .file _ mt _ => mt
  | .dir mt _ => mt
  | .other mt => mt

/-- `stats.isFile()`. -/
def FSNode.isFile : FSNode → Bool
  | .file _ _ _ => true
  | _ => false

/-- Find the directory entry with the given name. -/
def findEntry : FSEntries → String → Option FSNode
  | .nil, _ => none
  | .cons n node rest, name => if n = name then some node else findEntry rest name

/-- Resolve a path against a node (model of a successful `fs.stat` /
directory traversal); `none` when the path does not exist. -/
def lookup : Path → FSNode → Option FSNode
  | [], node => some node
  | name :: rest, .dir _ es =>
    match findEntry es name with
    | some child => lookup rest child
    | none => none
  | _ :: _, _ => none

/-- The names listed by `fs.readdir` on a directory node. -/
def entriesNames : FSEntries → List String
  | .nil => []
  | .cons n _ rest => n :: entriesNames rest

/-- `fs.readdir(outdir)`; the output root is assumed to be a directory. -/
def rootEntries : FSNode → List String
  | .dir _ es => entriesNames es
  | _ => []

/-- The directory entries of a directory node, as a list. -/
def entriesToList : FSEntries → List (String × FSNode)
  | .nil => []
  | .cons n node rest => (n, node) :: entriesToList rest

mutual
/-- `calculateSize` from `src/utils.ts`: a file contributes its byte length,
a directory the sum over its entries, any other node kind contributes 0. -/
def calculateSize : FSNode → Nat
  | .file sz _ _ => sz
  | .dir _ es => sizeOfEntries es
  | .other _ => 0

/-- Sum of `calculateSize` over directory entries. -/
def sizeOfEntries : FSEntries → Nat
  | .nil => 0
  | .cons _ node rest => calculateSize node + sizeOfEntries rest
end

/-- The resolved source paths of one parsed descriptor located in directory
`dirPath`: each present `files` entry source path and each present
`dockerImages` entry source directory, joined onto `dirPath` (the directory
containing the descriptor file). -/
def docSources (dirPath : Path) (doc : AssetsDoc) : List Path :=
  (doc.files.filterMap id).map (normJoin dirPath)
    ++ (doc.dockerImages.filterMap id).map (normJoin dirPath)

mutual
/-- `collectAssetPaths` from `src/asset-cleanup.ts`: recursively walk the
tree below `dirPath`; for every `*.assets.json` file, resolve each
`files[...].source.path` and `dockerImages[...].source.directory` relative to
the directory containing that descriptor; unparseable descriptors are
skipped with a warning.  Directories are recursed into before the name
suffix is considered, matching the `item.isDirectory()` check coming first. -/
def collectAssetPaths (dirPath : Path) : FSNode → List Path
  | .dir _ es => collectAssetPathsList dirPath es
  | _ => []

/-- Per-entry traversal of `collectAssetPaths`. -/
def collectAssetPathsList (dirPath : Path) : FSEntries → List Path
  | .nil => []
  | .cons name node rest =>
    (match node with
     | .dir mt es => collectAssetPaths (dirPath ++ [name]) (.dir mt es)
     | .file _ _ doc =>
       if nameEndsWith name ".assets.json" then
         match doc with
         | some d => docSources dirPath d
         | none => []
       else []
     | .other _ => []) ++ collectAssetPathsList dirPath rest
end

/-- Does a directory have an entry named `name` (model of `fs.access`)? -/
def hasEntryNamed (name : String) : FSEntries → Bool
  | .nil => false
  | .cons n _ rest => n = name || hasEntryNamed name rest

/-- The candidate entries: direct children of the output root whose name
starts with `"asset."`. -/
def assetEntries (t : FSNode) : List String :=
  (rootEntries t).filter (fun n => nameStartsWith n "asset.")

/-- `collectDockerImageAssetPaths` from `src/docker-cleanup.ts`: the
candidate paths that are directories containing an entry named
`"Dockerfile"`; a failed stat or missing Dockerfile yields no path. -/
def dockerImageAssetPaths (t : FSNode) : List Path :=
  (assetEntries t).filterMap fun entry =>
    match lookup [entry] t with
    | some (.dir _ es) => if hasEntryNamed "Dockerfile" es then some [entry] else none
    | _ => none

/-- `isProtected` from `src/asset-cleanup.ts`: a candidate is protected when
its path is in the reference set, or else, when `keepHours > 0`, when its age
in hours is at most `keepHours`.  The `fs.stat` call is not guarded by any
try/catch, so a vanished path surfaces as an error. -/
def isProtected (t : FSNode) (itemPath : Path) (activePaths : List Path)
    (keepHours now : Rat) : Except Unit Bool :=
  if itemPath ∈ activePaths then .ok true
  else if 0 < keepHours then
    match lookup itemPath t with
    | none => .error ()
    | some node =>
      if (now - node.mtimeMs) / (1000 * 60 * 60) ≤ keepHours then .ok true
      else .ok false
  else .ok false

/-- `shouldProtectDirectory` from `src/temp-cleanup.ts`: same recency rule,
but a failed `fs.stat` is caught and yields `false`. -/
def shouldProtectDirectory (t : FSNode) (dirPath : Path) (keepHours now : Rat) : Bool :=
  if keepHours ≤ 0 then false
  else
    match lookup dirPath t with
    | none => false
    | some node => decide ((now - node.mtimeMs) / (1000 * 60 * 60) ≤ keepHours)

/-- One entry of the deletion plan, as assembled by `cleanupAssets`. -/
structure PlanItem where
  path : Path
  size : Nat
  isDockerImageAsset : Bool
deriving DecidableEq

/-- The fan-out over candidate entries inside `cleanupAssets`: unprotected
entries are sized and added to the plan; an `isProtected` rejection (or a
rejected `fs.stat` while sizing) rejects the whole `Promise.all` batch. -/
def planItems (t : FSNode) (active : List Path) (dockerPaths : List Path)
    (keepHours now : Rat) : List String → Except Unit (List PlanItem)
  | [] => .ok []
  | entry :: rest =>
    match isProtected t [entry] active keepHours now with
    | .error e => .error e
    | .ok true => planItems t active dockerPaths keepHours now rest
    | .ok false =>
      match lookup [entry] t with
      | none => .error ()
      | some node =>
        match planItems t active dockerPaths keepHours now rest with
        | .error e => .error e
        | .ok tail =>
          .ok (⟨[entry], calculateSize node, decide ([entry] ∈ dockerPaths)⟩ :: tail)

/-- The deletion plan computed by `cleanupAssets` before the dry-run branch:
reference set, candidate filter, Docker-asset detection, then the per-entry
fan-out. -/
def computePlan (t : FSNode) (keepHours now : Rat) : Except Unit (List PlanItem) :=
  planItems t (collectAssetPaths [] t) (dockerImageAssetPaths t) keepHours now
    (assetEntries t)

/-- The root-child name of a plan path (all plan paths are `[entry]`). -/
def topName (p : Path) : String := p.headI

/-- Directory entries surviving deletion of the named root children
(`fs.rm(path, recursive, force)` per planned path; filesystem names are
unique, so removing every entry carrying a deleted name models it). -/
def filterOutNames (ns : List String) : FSEntries → FSEntries
  | .nil => .nil
  | .cons n node rest =>
    if n ∈ ns then filterOutNames ns rest
    else .cons n node (filterOutNames ns rest)

/-- Deletion of the given direct children of the output root. -/
def removeTopNames (ns : List String) : FSNode → FSNode
  | .dir mt es => .dir mt (filterOutNames ns es)
  | t => t

/-- Render a model path as the string `path.join(outdir, ...)` produces for
plain components. -/
def renderPath (outdir : String) (p : Path) : String :=
  p.foldl (fun acc c => acc ++ "/" ++ c) outdir

/-- Characters matched by an un-flagged `.` in a JavaScript regular
expression (anything except line terminators). -/
def jsDotMatches (c : Char) : Bool :=
  c ≠ '\n' && c ≠ '\r' && c.val ≠ 0x2028 && c.val ≠ 0x2029

/-- The literal `"asset."` as characters. -/
def assetDot : List Char := ['a', 's', 's', 'e', 't', '.']

/-- One attempt of `/asset\.(.+)/` at the current position: the literal
`"asset."` followed by a non-empty greedy run of `.`-matching characters. -/
def tryMatchAt (s : List Char) : Option (List Char) :=
  if assetDot.isPrefixOf s then
    let cap := (s.drop 6).takeWhile jsDotMatches
    if cap.isEmpty then none else some cap
  else none

/-- `extractDockerImageHash` from `src/docker-cleanup.ts`:
`assetPath.match(/asset\.(.+)/)`, returning the first capture group of the
leftmost match, if any. -/
def extractDockerImageHash : List Char → Option (List Char)
  | [] => none
  | c :: rest =>
    match tryMatchAt (c :: rest) with
    | some cap => some cap
    | none => extractDockerImageHash rest

/-- No position inside the prefix `p` of `p ++ tail` starts a successful
match of `/asset\.(.+)/`: at every suffix of `p` the one-position attempt
fails (either `"asset."` does not occur there, or it is followed by nothing
or a line terminator).  This pins the designated occurrence at the start of
`tail` as the leftmost matching one. -/
def noMatchBefore (tail : List Char) : List Char → Bool
  | [] => true
  | c :: p2 => (tryMatchAt (c :: (p2 ++ tail))).isNone && noMatchBefore tail p2

/-- Modelled from the spec: a path matching the build-artifact naming
pattern `asset.<64-hex-hash>` — it contains `"asset."` followed by 64
lowercase hexadecimal digits. -/
def specIsHexDigit (c : Char) : Bool :=
  (('0' ≤ c) && (c ≤ '9')) || (('a' ≤ c) && (c ≤ 'f'))

/-- Modelled from the spec: the pattern test backing the claim that the
extractor returns the hash only for `asset.<64-hex-hash>` paths. -/
def specMatchesAsset64 : List Char → Bool
  | [] => false
  | c :: rest =>
    (assetDot.isPrefixOf (c :: rest)
      && ((c :: rest).drop 6).length ≥ 64
      && (((c :: rest).drop 6).take 64).all specIsHexDigit)
    || specMatchesAsset64 rest

/-- The container-image hashes reported for a plan: the extractor applied to
the rendered path of each Docker-image plan entry, dropping failures. -/
def cleanupDockerHashes (outdir : String) (plan : List PlanItem) : List (List Char) :=
  plan.filterMap fun item =>
    if item.isDockerImageAsset then extractDockerImageHash (renderPath outdir item.path).data
    else none

/-- Outcome of one `cleanupAssets` run: the reported plan, the emitted
container-image hashes, and the filesystem afterwards. -/
structure CleanupResult where
  plan : List PlanItem
  dockerHashes : List (List Char)
  after : FSNode

/-- `cleanupAssets` from `src/asset-cleanup.ts`: compute the plan, derive the
Docker-image hashes from it, and delete the planned paths unless `dryRun`. -/
def cleanupAssets (outdir : String) (t : FSNode) (dryRun : Bool)
    (keepHours now : Rat) : Except Unit CleanupResult :=
  match computePlan t keepHours now with
  | .error e => .error e
  | .ok plan =>
    .ok ⟨plan, cleanupDockerHashes outdir plan,
      if dryRun then t else removeTopNames (plan.map fun i => topName i.path) t⟩

mutual
/-- Modelled from the spec: the asset-descriptor files found anywhere under
the output root, each paired with the directory containing it and its parsed
content (unparseable descriptors are skipped). -/
def specDescriptors (dirPath : Path) : FSNode → List (Path × AssetsDoc)
  | .dir _ es => specDescriptorsList dirPath es
  | _ => []

/-- Per-entry traversal of `specDescriptors`. -/
def specDescriptorsList (dirPath : Path) : FSEntries → List (Path × AssetsDoc)
  | .nil => []
  | .cons name node rest =>
    (match node with
     | .dir mt es => specDescriptors (dirPath ++ [name]) (.dir mt es)
     | .file _ _ doc =>
       if nameEndsWith name ".assets.json" then
         match doc with
         | some d => [(dirPath, d)]
         | none => []
       else []
     | .other _ => []) ++ specDescriptorsList dirPath rest
end

/-- Modelled from the spec: every source path of every descriptor file,
resolved relative to the directory containing that descriptor file. -/
def specReferencePaths (dirPath : Path) (t : FSNode) : List Path :=
  ((specDescriptors dirPath t).map fun pr => docSources pr.1 pr.2).flatten

deriving instance DecidableEq for Except

/-- Every directory entry carrying the given name is a regular file. -/
def entriesNamedAllFiles (name : String) : FSEntries → Bool
  | .nil => true
  | .cons n node rest =>
    (if n = name then node.isFile else true) && entriesNamedAllFiles name rest

/-- Every root child carrying the given name is a regular file (true on a
real filesystem whenever the name, if present at the root, names a file). -/
def rootNamedAllFiles (name : String) : FSNode → Bool
  | .dir _ es => entriesNamedAllFiles name es
  | _ => true

/-! Concrete filesystems used by counterexamples and witnesses. -/

/-- A root with a descriptor referencing a file deep inside `asset.abc`:
`S.assets.json` has one `files` entry with `source.path`
`"asset.abc/inner.txt"`. -/
def exTreeC1 : FSNode :=
  .dir 0 (.cons "S.assets.json"
    (.file 10 0 (some ⟨[some ["asset.abc", "inner.txt"]], []⟩))
    (.cons "asset.abc"
      (.dir 0 (.cons "inner.txt" (.file 5 0 none) .nil))
      .nil))

/-- A root containing only the stale candidate `asset.old`; the entry
`asset.gone` from a stale directory listing no longer exists. -/
def exTreeC5 : FSNode :=
  .dir 0 (.cons "asset.old" (.file 3 0 none) .nil)

/-- A root where the descriptor protecting `asset.bbb` lives inside the
unreferenced old directory `asset.aaa` (its `files` entry has `source.path`
`"../asset.bbb"`). -/
def exTreeC9 : FSNode :=
  .dir 0 (.cons "asset.aaa"
    (.dir 0 (.cons "S.assets.json"
      (.file 1 0 (some ⟨[some ["..", "asset.bbb"]], []⟩)) .nil))
    (.cons "asset.bbb" (.file 7 0 none) .nil))

/-- A root with a user file `notes.txt` next to an old candidate. -/
def exTreeC2 : FSNode :=
  .dir 0 (.cons "notes.txt" (.file 11 0 none)
    (.cons "asset.old" (.file 3 0 none) .nil))

/-- A root with a single candidate file `asset.x`. -/
def exTreeC3 : FSNode :=
  .dir 0 (.cons "asset.x" (.file 5 0 none) .nil)

/-- A root with a manifest file and an old candidate. -/
def exTreeC7 : FSNode :=
  .dir 0 (.cons "manifest.json" (.file 20 0 none)
    (.cons "asset.old" (.file 3 0 none) .nil))

/-- A root with an unreferenced Docker-image asset directory. -/
def exTreeC4 : FSNode :=
  .dir 0 (.cons "asset.dkr"
    (.dir 0 (.cons "Dockerfile" (.file 9 0 none) .nil))
    .nil)

/-- A nested sub-build: the descriptor inside `assembly-MyStage` references
the top-level `asset.top` via the upward relative path `"../asset.top"`. -/
def exTreeC8 : FSNode :=
  .dir 0 (.cons "assembly-MyStage"
    (.dir 0 (.cons "St.assets.json"
      (.file 2 0 (some ⟨[some ["..", "asset.top"]], []⟩)) .nil))
    (.cons "asset.top" (.dir 0 .nil) .nil))

/-! Helper lemmas about the embedded operations. -/

theorem isProtected_ok_false_not_active {t : FSNode} {q : Path} {a : List Path}
    {kh now : Rat} (h : isProtected t q a kh now = .ok false) : q ∉ a := by
  intro hq
  simp [isProtected, if_pos hq] at h

theorem planItems_sound {t : FSNode} {a d : List Path} {kh now : Rat}
    (es : List String) :
    ∀ {plan : List PlanItem}, planItems t a d kh now es = .ok plan →
      ∀ item ∈ plan, ∃ e, e ∈ es ∧ item.path = [e] ∧
        isProtected t [e] a kh now = .ok false := by
  induction es with
  | nil =>
    intro plan h item hitem
    rw [planItems] at h
    injection h with h
    subst h
    simp at hitem
  | cons entry rest ih =>
    intro plan h item hitem
    rw [planItems] at h
    cases hp : isProtected t [entry] a kh now with
    | error e => rw [hp] at h; exact absurd h (by simp)
    | ok b =>
      rw [hp] at h
      cases b with
      | true =>
        obtain ⟨e, he, hpath, hprot⟩ := ih h item hitem
        exact ⟨e, List.mem_cons_of_mem _ he, hpath, hprot⟩
      | false =>
        cases hl : lookup [entry] t with
        | none => rw [hl] at h; exact absurd h (by simp)
        | some node =>
          rw [hl] at h
          cases ht : planItems t a d kh now rest with
          | error e => rw [ht] at h; exact absurd h (by simp)
          | ok tail =>
            rw [ht] at h
            injection h with h
            subst h
            rcases List.mem_cons.mp hitem with rfl | hmem
            · exact ⟨entry, List.mem_cons_self _ _, rfl, hp⟩
            · obtain ⟨e, he, hpath, hprot⟩ := ih ht item hmem
              exact ⟨e, List.mem_cons_of_mem _ he, hpath, hprot⟩

theorem planItems_protected_of_not_planned {t : FSNode} {a d : List Path}
    {kh now : Rat} (es : List String) :
    ∀ {plan : List PlanItem}, planItems t a d kh now es = .ok plan →
      ∀ e ∈ es, (∀ item ∈ plan, item.path ≠ [e]) →
        isProtected t [e] a kh now = .ok true := by
  induction es with
  | nil => intro plan h e he; simp at he
  | cons entry rest ih =>
    intro plan h e he hnot
    rw [planItems] at h
    cases hp : isProtected t [entry] a kh now with
    | error err => rw [hp] at h; exact absurd h (by simp)
    | ok b =>
      rw [hp] at h
      cases b with
      | true =>
        rcases List.mem_cons.mp he with rfl | hmem
        · exact hp
        · exact ih h e hmem hnot
      | false =>
        cases hl : lookup [entry] t with
        | none => rw [hl] at h; exact absurd h (by simp)
        | some node =>
          rw [hl] at h
          cases ht : planItems t a d kh now rest with
          | error err => rw [ht] at h; exact absurd h (by simp)
          | ok tail =>
            rw [ht] at h
            injection h with h
            subst h
            rcases List.mem_cons.mp he with rfl | hmem
            · exact absurd rfl (hnot _ (List.mem_cons_self _ _))
            · exact ih ht e hmem fun item hi => hnot item (List.mem_cons_of_mem _ hi)

theorem planItems_all_protected {t : FSNode} {a d : List Path} {kh now : Rat}
    (es : List String)
    (h : ∀ e ∈ es, isProtected t [e] a kh now = .ok true) :
    planItems t a d kh now es = .ok [] := by
  induction es with
  | nil => rw [planItems]
  | cons entry rest ih =>
    rw [planItems, h entry (List.mem_cons_self _ _)]
    exact ih fun e he => h e (List.mem_cons_of_mem _ he)

theorem isProtected_ok_of_lookup {t : FSNode} {q : Path} {a : List Path}
    {kh now : Rat} {node : FSNode} (h : lookup q t = some node) :
    ∃ b, isProtected t q a kh now = .ok b := by
  unfold isProtected
  simp only [h]
  split
  · exact ⟨true, rfl⟩
  · split
    · split
      · exact ⟨true, rfl⟩
      · exact ⟨false, rfl⟩
    · exact ⟨false, rfl⟩

theorem planItems_ok_of_lookup {t : FSNode} {a d : List Path} {kh now : Rat}
    (es : List String)
    (h : ∀ e ∈ es, ∃ node, lookup [e] t = some node) :
    ∃ plan, planItems t a d kh now es = .ok plan := by
  induction es with
  | nil => exact ⟨[], rfl⟩
  | cons entry rest ih =>
    obtain ⟨node, hnode⟩ := h entry (List.mem_cons_self _ _)
    obtain ⟨tail, htail⟩ := ih fun e he => h e (List.mem_cons_of_mem _ he)
    rw [planItems]
    obtain ⟨b, hb⟩ := @isProtected_ok_of_lookup t [entry] a kh now node hnode
    rw [hb]
    cases b with
    | true => exact ⟨tail, htail⟩
    | false =>
      rw [hnode, htail]
      exact ⟨_, rfl⟩

theorem findEntry_filterOutNames {ns : List String} {name : String}
    (h : name ∉ ns) : ∀ es : FSEntries,
    findEntry (filterOutNames ns es) name = findEntry es name
  | .nil => rfl
  | .cons n node rest => by
    rw [filterOutNames]
    by_cases hn : n ∈ ns
    · rw [if_pos hn, findEntry_filterOutNames h rest, findEntry]
      have hne : n ≠ name := by rintro rfl; exact h hn
      rw [if_neg hne]
    · rw [if_neg hn, findEntry, findEntry, findEntry_filterOutNames h rest]

theorem lookup_removeTopNames {ns : List String} {name : String}
    (h : name ∉ ns) (p : Path) (t : FSNode) :
    lookup (name :: p) (removeTopNames ns t) = lookup (name :: p) t := by
  cases t with
  | dir mt es => rw [removeTopNames, lookup, lookup, findEntry_filterOutNames h]
  | file sz mt doc => rfl
  | other mt => rfl

theorem entriesNames_filterOutNames (ns : List String) : ∀ es : FSEntries,
    entriesNames (filterOutNames ns es)
      = (entriesNames es).filter (fun n => !decide (n ∈ ns))
  | .nil => rfl
  | .cons n node rest => by
    rw [filterOutNames, entriesNames, List.filter_cons]
    by_cases hn : n ∈ ns
    · rw [if_pos hn, entriesNames_filterOutNames ns rest]
      simp [hn]
    · rw [if_neg hn, entriesNames, entriesNames_filterOutNames ns rest]
      simp [hn]

theorem rootEntries_removeTopNames (ns : List String) (t : FSNode) :
    rootEntries (removeTopNames ns t)
      = (rootEntries t).filter (fun n => !decide (n ∈ ns)) := by
  cases t with
  | dir mt es => rw [removeTopNames, rootEntries, rootEntries,
      entriesNames_filterOutNames]
  | file sz mt doc => rfl
  | other mt => rfl

theorem filter_filter_of_imp {p q : String → Bool} :
    ∀ l : List String, (∀ n ∈ l, p n = true → q n = true) →
      (l.filter q).filter p = l.filter p
  | [], _ => rfl
  | x :: xs, h => by
    have ihr := filter_filter_of_imp xs fun n hn => h n (List.mem_cons_of_mem _ hn)
    by_cases hq : q x = true
    · by_cases hp : p x = true
      · rw [List.filter_cons, if_pos hq, List.filter_cons, if_pos hp, ihr,
          List.filter_cons, if_pos hp]
      · rw [List.filter_cons, if_pos hq, List.filter_cons, if_neg hp, ihr,
          List.filter_cons, if_neg hp]
    · have hp : ¬ p x = true := fun hpx => hq (h x (List.mem_cons_self _ _) hpx)
      rw [List.filter_cons, if_neg hq, ihr, List.filter_cons, if_neg hp]

theorem isProtected_congr {t₂ t₁ : FSNode} {q : Path} (a : List Path)
    (kh now : Rat) (h : lookup q t₂ = lookup q t₁) :
    isProtected t₂ q a kh now = isProtected t₁ q a kh now := by
  unfold isProtected
  rw [h]

theorem planItems_congr (t₂ t₁ : FSNode) (a d : List Path) (kh now : Rat) :
    ∀ es : List String, (∀ e ∈ es, lookup [e] t₂ = lookup [e] t₁) →
      planItems t₂ a d kh now es = planItems t₁ a d kh now es
  | [], _ => rfl
  | entry :: rest, h => by
    have ihr := planItems_congr t₂ t₁ a d kh now rest
      fun e he => h e (List.mem_cons_of_mem _ he)
    rw [planItems, planItems,
      isProtected_congr a kh now (h entry (List.mem_cons_self _ _)),
      h entry (List.mem_cons_self _ _), ihr]

theorem findEntry_of_mem {n : String} : ∀ es : FSEntries,
    n ∈ entriesNames es → ∃ node, findEntry es n = some node
  | .nil, h => by simp [entriesNames] at h
  | .cons m node rest, h => by
    rw [findEntry]
    by_cases hm : m = n
    · exact ⟨node, if_pos hm⟩
    · rw [if_neg hm]
      rcases List.mem_cons.mp h with rfl | hmem
      · exact absurd rfl hm
      · exact findEntry_of_mem rest hmem

theorem lookup_root_child {n : String} {t : FSNode} (h : n ∈ rootEntries t) :
    ∃ node, lookup [n] t = some node := by
  cases t with
  | dir mt es =>
    obtain ⟨node, hnode⟩ := findEntry_of_mem es h
    exact ⟨node, by simp [lookup, hnode]⟩
  | file sz mt doc => simp [rootEntries] at h
  | other mt => simp [rootEntries] at h

theorem computePlan_ok (t : FSNode) (kh now : Rat) :
    ∃ plan, computePlan t kh now = .ok plan := by
  refine planItems_ok_of_lookup _ fun e he => lookup_root_child ?_
  exact List.mem_of_mem_filter he

theorem list_filterMap_congr {α β : Type} {f g : α → Option β} :
    ∀ l : List α, (∀ a ∈ l, f a = g a) → l.filterMap f = l.filterMap g
  | [], _ => rfl
  | x :: xs, h => by
    rw [List.filterMap_cons, List.filterMap_cons, h x (List.mem_cons_self _ _),
      list_filterMap_congr xs fun a ha => h a (List.mem_cons_of_mem _ ha)]

theorem startsWith_of_mem_assetEntries {e : String} {t : FSNode}
    (he : e ∈ assetEntries t) : nameStartsWith e "asset." = true := by
  unfold assetEntries at he
  simpa using List.of_mem_filter he

theorem collectAssetPathsList_cons_dir (d : Path) (n : String) (mt : Rat)
    (es2 : FSEntries) (rest : FSEntries) :
    collectAssetPathsList d (.cons n (.dir mt es2) rest)
      = collectAssetPaths (d ++ [n]) (.dir mt es2)
        ++ collectAssetPathsList d rest := rfl

theorem collectAssetPathsList_cons_file (d : Path) (n : String) (sz : Nat)
    (mt : Rat) (doc : Option AssetsDoc) (rest : FSEntries) :
    collectAssetPathsList d (.cons n (.file sz mt doc) rest)
      = (if nameEndsWith n ".assets.json" then
           match doc with
           | some dd => docSources d dd
           | none => []
         else []) ++ collectAssetPathsList d rest := rfl

theorem collectAssetPathsList_cons_other (d : Path) (n : String) (mt : Rat)
    (rest : FSEntries) :
    collectAssetPathsList d (.cons n (.other mt) rest)
      = collectAssetPathsList d rest := rfl

theorem collectAssetPathsList_filterOut {m : String}
    (hend : nameEndsWith m ".assets.json" = false) (d : Path) :
    ∀ es : FSEntries, entriesNamedAllFiles m es = true →
      collectAssetPathsList d (filterOutNames [m] es) = collectAssetPathsList d es
  | .nil, _ => rfl
  | .cons n node rest, hall => by
    rw [entriesNamedAllFiles, Bool.and_eq_true] at hall
    obtain ⟨hthis, hrest⟩ := hall
    rw [filterOutNames]
    by_cases hn : n ∈ [m]
    · have hnm : n = m := by simpa using hn
      rw [if_pos hn, collectAssetPathsList_filterOut hend d rest hrest]
      rw [if_pos hnm] at hthis
      cases node with
      | file sz mt doc =>
        subst hnm
        rw [collectAssetPathsList_cons_file, if_neg (by simp [hend])]
        rw [List.nil_append]
      | dir mt es2 => simp [FSNode.isFile] at hthis
      | other mt => simp [FSNode.isFile] at hthis
    · rw [if_neg hn]
      cases node with
      | file sz mt doc =>
        rw [collectAssetPathsList_cons_file, collectAssetPathsList_cons_file,
          collectAssetPathsList_filterOut hend d rest hrest]
      | dir mt es2 =>
        rw [collectAssetPathsList_cons_dir, collectAssetPathsList_cons_dir,
          collectAssetPathsList_filterOut hend d rest hrest]
      | other mt =>
        rw [collectAssetPathsList_cons_other, collectAssetPathsList_cons_other,
          collectAssetPathsList_filterOut hend d rest hrest]

theorem collectAssetPaths_removeTopSingle {m : String}
    (hend : nameEndsWith m ".assets.json" = false) (t : FSNode)
    (hall : rootNamedAllFiles m t = true) :
    collectAssetPaths [] (removeTopNames [m] t) = collectAssetPaths [] t := by
  cases t with
  | dir mt es =>
    rw [rootNamedAllFiles] at hall
    rw [removeTopNames, collectAssetPaths, collectAssetPaths,
      collectAssetPathsList_filterOut hend [] es hall]
  | file sz mt doc => rfl
  | other mt => rfl

theorem assetEntries_removeTopSingle {m : String}
    (hstart : nameStartsWith m "asset." = false) (t : FSNode) :
    assetEntries (removeTopNames [m] t) = assetEntries t := by
  unfold assetEntries
  rw [rootEntries_removeTopNames]
  apply filter_filter_of_imp
  intro n _ hpn
  simp only [Bool.not_eq_true', decide_eq_false_iff_not, List.mem_singleton]
  rintro rfl
  rw [hpn] at hstart
  exact Bool.noConfusion hstart

theorem lookup_removeTopSingle_of_asset {m e : String}
    (hstart : nameStartsWith m "asset." = false)
    (he : nameStartsWith e "asset." = true) (t : FSNode) :
    lookup [e] (removeTopNames [m] t) = lookup [e] t := by
  apply lookup_removeTopNames
  simp only [List.mem_singleton]
  rintro rfl
  rw [he] at hstart
  exact Bool.noConfusion hstart

theorem dockerImageAssetPaths_removeTopSingle {m : String}
    (hstart : nameStartsWith m "asset." = false) (t : FSNode) :
    dockerImageAssetPaths (removeTopNames [m] t) = dockerImageAssetPaths t := by
  unfold dockerImageAssetPaths
  rw [assetEntries_removeTopSingle hstart]
  apply list_filterMap_congr
  intro e he
  rw [lookup_removeTopSingle_of_asset hstart (startsWith_of_mem_assetEntries he) t]

theorem computePlan_removeTopSingle {m : String}
    (hstart : nameStartsWith m "asset." = false)
    (hend : nameEndsWith m ".assets.json" = false) (t : FSNode)
    (kh now : Rat) (hall : rootNamedAllFiles m t = true) :
    computePlan (removeTopNames [m] t) kh now = computePlan t kh now := by
  unfold computePlan
  rw [assetEntries_removeTopSingle hstart,
    collectAssetPaths_removeTopSingle hend t hall,
    dockerImageAssetPaths_removeTopSingle hstart]
  apply planItems_congr
  intro e he
  exact lookup_removeTopSingle_of_asset hstart (startsWith_of_mem_assetEntries he) t

theorem specDescriptorsList_cons_dir (d : Path) (n : String) (mt : Rat)
    (es2 : FSEntries) (rest : FSEntries) :
    specDescriptorsList d (.cons n (.dir mt es2) rest)
      = specDescriptors (d ++ [n]) (.dir mt es2)
        ++ specDescriptorsList d rest := rfl

theorem specDescriptorsList_cons_file (d : Path) (n : String) (sz : Nat)
    (mt : Rat) (doc : Option AssetsDoc) (rest : FSEntries) :
    specDescriptorsList d (.cons n (.file sz mt doc) rest)
      = (if nameEndsWith n ".assets.json" then
           match doc with
           | some dd => [(d, dd)]
           | none => []
         else []) ++ specDescriptorsList d rest := rfl

theorem specDescriptorsList_cons_other (d : Path) (n : String) (mt : Rat)
    (rest : FSEntries) :
    specDescriptorsList d (.cons n (.other mt) rest)
      = specDescriptorsList d rest := rfl

mutual
theorem collectAssetPaths_eq_spec : ∀ (d : Path) (t : FSNode),
    collectAssetPaths d t = specReferencePaths d t
  | d, .dir _mt es => collectAssetPathsList_eq_spec d es
  | _, .file _ _ _ => rfl
  | _, .other _ => rfl

theorem collectAssetPathsList_eq_spec : ∀ (d : Path) (es : FSEntries),
    collectAssetPathsList d es
      = ((specDescriptorsList d es).map fun pr => docSources pr.1 pr.2).flatten
  | _, .nil => rfl
  | d, .cons n (.dir mt es2) rest => by
    rw [collectAssetPathsList_cons_dir, specDescriptorsList_cons_dir,
      List.map_append, List.flatten_append,
      collectAssetPathsList_eq_spec d rest,
      collectAssetPaths_eq_spec (d ++ [n]) (.dir mt es2)]
    rfl
  | d, .cons n (.file _sz _mt doc) rest => by
    rw [collectAssetPathsList_cons_file, specDescriptorsList_cons_file,
      List.map_append, List.flatten_append, collectAssetPathsList_eq_spec d rest]
    congr 1
    by_cases he : nameEndsWith n ".assets.json" = true
    · rw [if_pos he, if_pos he]
      cases doc with
      | some dd => simp
      | none => rfl
    · rw [if_neg he, if_neg he]
      rfl
  | d, .cons n (.other _mt) rest => by
    rw [collectAssetPathsList_cons_other, specDescriptorsList_cons_other,
      collectAssetPathsList_eq_spec d rest]
end

theorem sizeOfEntries_eq_sum : ∀ es : FSEntries,
    sizeOfEntries es = ((entriesToList es).map fun e => calculateSize e.2).sum
  | .nil => rfl
  | .cons n node rest => by
    show calculateSize node + sizeOfEntries rest
      = ((entriesToList (.cons n node rest)).map fun e => calculateSize e.2).sum
    rw [sizeOfEntries_eq_sum rest]
    rfl

theorem extractDockerImageHash_cons (c : Char) (rest : List Char) :
    extractDockerImageHash (c :: rest)
      = match tryMatchAt (c :: rest) with
        | some cap => some cap
        | none => extractDockerImageHash rest := rfl

theorem assetDot_isPrefixOf_append (r : List Char) :
    assetDot.isPrefixOf (assetDot ++ r) = true := by
  simp [assetDot, List.isPrefixOf]

theorem tryMatchAt_append (r : List Char) :
    tryMatchAt (assetDot ++ r)
      = if (r.takeWhile jsDotMatches).isEmpty then none
        else some (r.takeWhile jsDotMatches) := by
  rw [tryMatchAt, if_pos (assetDot_isPrefixOf_append r)]
  rw [show (assetDot ++ r).drop 6 = r from rfl]

theorem assetDot_decomp {s : List Char} (h : assetDot.isPrefixOf s = true) :
    s = assetDot ++ s.drop 6 := by
  obtain ⟨t, ht⟩ := List.isPrefixOf_iff_prefix.mp h
  rw [← ht]
  rfl

theorem extract_skip (tail : List Char) : ∀ p : List Char,
    noMatchBefore tail p = true →
    extractDockerImageHash (p ++ tail) = extractDockerImageHash tail
  | [], _ => rfl
  | c :: p2, h => by
    rw [noMatchBefore, Bool.and_eq_true] at h
    obtain ⟨h1, h2⟩ := h
    have hnone : tryMatchAt (c :: (p2 ++ tail)) = none :=
      Option.isNone_iff_eq_none.mp h1
    rw [show (c :: p2) ++ tail = c :: (p2 ++ tail) from rfl,
      extractDockerImageHash_cons, hnone]
    exact extract_skip tail p2 h2

theorem extract_of_match_at (c : Char) (cs : List Char)
    (hc : jsDotMatches c = true) :
    extractDockerImageHash (assetDot ++ c :: cs)
      = some (c :: cs.takeWhile jsDotMatches) := by
  have h2 := tryMatchAt_append (c :: cs)
  rw [List.takeWhile_cons, if_pos hc] at h2
  rw [show assetDot ++ c :: cs = 'a' :: (['s', 's', 'e', 't', '.'] ++ c :: cs) from rfl,
    extractDockerImageHash_cons]
  rw [show ('a' :: (['s', 's', 'e', 't', '.'] ++ c :: cs)) = assetDot ++ c :: cs from rfl,
    h2]
  rfl

theorem extract_none_iff : ∀ s : List Char,
    extractDockerImageHash s = none ↔
      ∀ q r, s = q ++ (assetDot ++ r) → r.takeWhile jsDotMatches = []
  | [] => by
    constructor
    · intro _ q r h
      cases q with
      | nil => exact absurd h (by simp [assetDot])
      | cons x q2 => exact absurd h (by simp)
    · intro _
      rfl
  | c :: rest => by
    rw [extractDockerImageHash_cons]
    cases hm : tryMatchAt (c :: rest) with
    | some cap =>
      constructor
      · intro h
        exact Option.noConfusion h
      · intro hforall
        have hpre : assetDot.isPrefixOf (c :: rest) = true := by
          cases hx : assetDot.isPrefixOf (c :: rest) with
          | true => rfl
          | false =>
            rw [tryMatchAt, hx] at hm
            simp at hm
        have hdec := assetDot_decomp hpre
        have hcap := hforall [] ((c :: rest).drop 6) hdec
        have hm2 : tryMatchAt (c :: rest) = none := by
          rw [hdec, tryMatchAt_append, hcap]
          rfl
        rw [hm] at hm2
        exact hm2
    | none =>
      show extractDockerImageHash rest = none ↔
        ∀ q r, c :: rest = q ++ (assetDot ++ r) → r.takeWhile jsDotMatches = []
      rw [extract_none_iff rest]
      constructor
      · intro hforall q r h
        cases q with
        | nil =>
          rw [List.nil_append] at h
          have hm2 := hm
          rw [h, tryMatchAt_append] at hm2
          by_cases hemp : (r.takeWhile jsDotMatches).isEmpty = true
          · exact List.isEmpty_iff.mp hemp
          · rw [if_neg hemp] at hm2
            exact absurd hm2 (by simp)
        | cons x q2 =>
          injection h with h1 h2
          exact hforall q2 r h2
      · intro hforall q r h
        exact hforall (c :: q) r (congrArg (List.cons c) h)

/-! Claim theorems. -/

/-- C1 counterexample: in `exTreeC1` the descriptor `S.assets.json`
references `asset.abc/inner.txt`, yet the ancestor directory `asset.abc` of
that referenced path is not added to the reference set and does appear in
the deletion plan — refuting the claim that the resolved path and all its
ancestors are added to the reference set and never appear in the plan. -/
theorem c1_reference_closure_counterexample :
    ["asset.abc", "inner.txt"] ∈ collectAssetPaths [] exTreeC1 ∧
    ["asset.abc"] ∉ collectAssetPaths [] exTreeC1 ∧
    computePlan exTreeC1 0 0 = .ok [⟨["asset.abc"], 5, false⟩] :=
  ⟨by decide, by decide, by decide⟩

/-- C1 (amended): for every artifact path referenced by any asset-descriptor
file anywhere under the output root, the resolved path itself is added to
the reference set, and hence that resolved path never appears in the
deletion plan; ancestor directories are not added and are not thereby
protected. -/
theorem c1_reference_paths_not_in_plan (t : FSNode) (kh now : Rat)
    (plan : List PlanItem) (p : Path)
    (hplan : computePlan t kh now = .ok plan)
    (hp : p ∈ collectAssetPaths [] t) :
    ∀ item ∈ plan, item.path ≠ p := by
  have hplan2 : planItems t (collectAssetPaths [] t) (dockerImageAssetPaths t)
      kh now (assetEntries t) = .ok plan := hplan
  intro item hitem heq
  obtain ⟨e, _, hpath, hprot⟩ := planItems_sound _ hplan2 item hitem
  refine isProtected_ok_false_not_active hprot ?_
  rw [← hpath, heq]
  exact hp

/-- Witness for the amended C1 at a concrete input. -/
theorem c1_reference_paths_not_in_plan_witness :
    computePlan exTreeC1 0 0 = .ok [⟨["asset.abc"], 5, false⟩] ∧
    ["asset.abc", "inner.txt"] ∈ collectAssetPaths [] exTreeC1 ∧
    ∀ item ∈ ([⟨["asset.abc"], 5, false⟩] : List PlanItem),
      item.path ≠ ["asset.abc", "inner.txt"] :=
  ⟨by decide, by decide,
    c1_reference_paths_not_in_plan exTreeC1 0 0 _ _ (by decide) (by decide)⟩

/-- C2: a direct child of the output root whose name does not start with
`"asset."` never appears in the deletion plan, and the run leaves it
untouched, regardless of its age or reference state. -/
theorem c2_prefix_scoping (outdir : String) (t : FSNode) (dryRun : Bool)
    (kh now : Rat) (res : CleanupResult) (name : String)
    (hname : nameStartsWith name "asset." = false)
    (hres : cleanupAssets outdir t dryRun kh now = .ok res) :
    (∀ item ∈ res.plan, item.path ≠ [name]) ∧
    lookup [name] res.after = lookup [name] t := by
  cases hpc : computePlan t kh now with
  | error e => rw [cleanupAssets, hpc] at hres; exact absurd hres (by simp)
  | ok plan =>
    have hplan2 : planItems t (collectAssetPaths [] t) (dockerImageAssetPaths t)
        kh now (assetEntries t) = .ok plan := hpc
    rw [cleanupAssets, hpc] at hres
    injection hres with hres
    subst hres
    constructor
    · intro item hitem heq
      obtain ⟨e, he, hpath, _⟩ := planItems_sound _ hplan2 item hitem
      have hstart := startsWith_of_mem_assetEntries he
      rw [heq] at hpath
      injection hpath with h1 _
      rw [← h1] at hstart
      rw [hstart] at hname
      exact Bool.noConfusion hname
    · show lookup [name]
          (if dryRun then t
           else removeTopNames (plan.map fun i => topName i.path) t)
        = lookup [name] t
      cases dryRun with
      | true => rfl
      | false =>
        show lookup [name] (removeTopNames (plan.map fun i => topName i.path) t)
          = lookup [name] t
        apply lookup_removeTopNames
        intro hmem
        obtain ⟨item, hitem, htop⟩ := List.mem_map.mp hmem
        obtain ⟨e, he, hpath, _⟩ := planItems_sound _ hplan2 item hitem
        have hstart := startsWith_of_mem_assetEntries he
        rw [hpath] at htop
        have hte : topName [e] = e := rfl
        rw [hte] at htop
        rw [htop] at hstart
        rw [hstart] at hname
        exact Bool.noConfusion hname

/-- Witness for C2 at a concrete input: `notes.txt` is neither planned nor
deleted while `asset.old` is removed. -/
theorem c2_prefix_scoping_witness :
    nameStartsWith "notes.txt" "asset." = false ∧
    cleanupAssets "cdk.out" exTreeC2 false 0 0
      = .ok ⟨[⟨["asset.old"], 3, false⟩], [],
          .dir 0 (.cons "notes.txt" (.file 11 0 none) .nil)⟩ ∧
    ((∀ item ∈ (⟨[⟨["asset.old"], 3, false⟩], [],
          .dir 0 (.cons "notes.txt" (.file 11 0 none) .nil)⟩ : CleanupResult).plan,
        item.path ≠ ["notes.txt"]) ∧
      lookup ["notes.txt"]
          (⟨[⟨["asset.old"], 3, false⟩], [],
            .dir 0 (.cons "notes.txt" (.file 11 0 none) .nil)⟩ : CleanupResult).after
        = lookup ["notes.txt"] exTreeC2) :=
  ⟨by decide, rfl,
    c2_prefix_scoping "cdk.out" exTreeC2 false 0 0 _ "notes.txt" (by decide) rfl⟩

/-- C3: when the candidate is not reference-protected and its metadata is
readable, the recency rule protects it exactly when the elapsed time is at
most `keepHours` hours (inclusive boundary), and a zero or negative
`keepHours` protects nothing and raises no error. -/
theorem c3_recency_rule (t : FSNode) (itemPath : Path) (active : List Path)
    (kh now : Rat) (node : FSNode)
    (hact : itemPath ∉ active) (hlk : lookup itemPath t = some node) :
    (0 < kh →
      (isProtected t itemPath active kh now = .ok true ↔
        now - node.mtimeMs ≤ kh * (1000 * 60 * 60))) ∧
    (kh ≤ 0 → isProtected t itemPath active kh now = .ok false) := by
  constructor
  · intro hkh
    unfold isProtected
    rw [if_neg hact, if_pos hkh]
    simp only [hlk]
    have hC : (0 : Rat) < 1000 * 60 * 60 := by norm_num
    simp only [div_le_iff₀ hC]
    by_cases hle : now - node.mtimeMs ≤ kh * (1000 * 60 * 60)
    · rw [if_pos hle]
      simp [hle]
    · rw [if_neg hle]
      simp [hle]
  · intro hkh
    unfold isProtected
    rw [if_neg hact, if_neg (not_lt.mpr hkh)]

/-- Witness for C3 at a concrete boundary input. -/
theorem c3_recency_rule_witness :
    (["asset.x"] : Path) ∉ ([] : List Path) ∧
    lookup ["asset.x"] exTreeC3 = some (.file 5 0 none) ∧
    ((0 < (1 : Rat) →
        (isProtected exTreeC3 ["asset.x"] [] 1 3600000 = .ok true ↔
          (3600000 : Rat) - (FSNode.file 5 0 none).mtimeMs
            ≤ 1 * (1000 * 60 * 60))) ∧
      ((1 : Rat) ≤ 0 →
        isProtected exTreeC3 ["asset.x"] [] 1 3600000 = .ok false)) :=
  ⟨by decide, rfl,
    c3_recency_rule exTreeC3 ["asset.x"] [] 1 3600000 (.file 5 0 none)
      (by decide) rfl⟩

/-- C4: a dry run computes exactly the plan and container-image hashes that
a real run over the same filesystem computes, and leaves the filesystem
unchanged, while the real run removes exactly the planned paths. -/
theorem c4_dry_run_same_plan (outdir : String) (t : FSNode) (kh now : Rat)
    (res : CleanupResult)
    (hres : cleanupAssets outdir t true kh now = .ok res) :
    res.after = t ∧
    cleanupAssets outdir t false kh now
      = .ok ⟨res.plan, res.dockerHashes,
          removeTopNames (res.plan.map fun i => topName i.path) t⟩ := by
  cases hpc : computePlan t kh now with
  | error e => rw [cleanupAssets, hpc] at hres; exact absurd hres (by simp)
  | ok plan =>
    rw [cleanupAssets, hpc] at hres
    injection hres with hres
    subst hres
    refine ⟨rfl, ?_⟩
    rw [cleanupAssets, hpc]
    rfl

/-- Witness for C4 at a concrete input with a Docker-image asset. -/
theorem c4_dry_run_same_plan_witness :
    cleanupAssets "cdk.out" exTreeC4 true 0 0
      = .ok ⟨[⟨["asset.dkr"], 9, true⟩], [['d', 'k', 'r']], exTreeC4⟩ ∧
    ((⟨[⟨["asset.dkr"], 9, true⟩], [['d', 'k', 'r']], exTreeC4⟩ : CleanupResult).after
        = exTreeC4 ∧
      cleanupAssets "cdk.out" exTreeC4 false 0 0
        = .ok ⟨(⟨[⟨["asset.dkr"], 9, true⟩], [['d', 'k', 'r']],
              exTreeC4⟩ : CleanupResult).plan,
            (⟨[⟨["asset.dkr"], 9, true⟩], [['d', 'k', 'r']],
              exTreeC4⟩ : CleanupResult).dockerHashes,
            removeTopNames
              ((⟨[⟨["asset.dkr"], 9, true⟩], [['d', 'k', 'r']],
                exTreeC4⟩ : CleanupResult).plan.map fun i => topName i.path)
              exTreeC4⟩) :=
  ⟨rfl, c4_dry_run_same_plan "cdk.out" exTreeC4 0 0 _ rfl⟩

/-- C5: the claim that a failed metadata read is absorbed is violated by the
asset-cleanup flow: with a positive retention window, `isProtected` on a
vanished path surfaces an error and the whole candidate batch fails (the
entry list models a stale `readdir` listing naming `asset.gone` after it was
removed), even though `asset.old` was still to evaluate; only the
temp-cleanup flow absorbs the failure, via `shouldProtectDirectory`. -/
theorem c5_stat_failure_crashes_run :
    planItems exTreeC5 [] [] 1 0 ["asset.gone", "asset.old"] = .error () ∧
    isProtected exTreeC5 ["asset.gone"] [] 1 0 = .error () ∧
    shouldProtectDirectory exTreeC5 ["asset.gone"] 1 0 = false :=
  ⟨by decide, by decide, by decide⟩

/-- C6 counterexample: `"asset.abc123"` does not match the build-artifact
pattern `asset.<64-hex-hash>`, yet the extractor returns `"abc123"` rather
than none — refuting the claim that it returns none for every path that does
not match that pattern. -/
theorem c6_extract_hash_counterexample :
    specMatchesAsset64 "asset.abc123".data = false ∧
    extractDockerImageHash "asset.abc123".data = some "abc123".data :=
  ⟨by decide, by decide⟩

/-- C6 (amended): applied to a path, the extractor returns the maximal run
of non-line-terminator characters following the leftmost occurrence of
`"asset."` that is followed by at least one non-line-terminator character
(`noMatchBefore` states that no earlier position matches, and the capture is
the greedy `takeWhile`) — so on `outdir/asset.<64-hex-hash>` it returns the
64-character hash, but non-hash suffixes are returned as well and the
capture stops at a line terminator; it returns none exactly when no
occurrence of `"asset."` in the path is followed by a non-line-terminator
character (in particular when `"asset."` does not occur at all, occurs only
at the very end, or is always followed immediately by a line terminator). -/
theorem c6_extract_hash_amended (p : List Char) (c : Char) (cs s : List Char)
    (hbefore : noMatchBefore (assetDot ++ c :: cs) p = true)
    (hc : jsDotMatches c = true) :
    extractDockerImageHash (p ++ (assetDot ++ c :: cs))
      = some (c :: cs.takeWhile jsDotMatches) ∧
    (extractDockerImageHash s = none ↔
      ∀ q r, s = q ++ (assetDot ++ r) → r.takeWhile jsDotMatches = []) := by
  constructor
  · rw [extract_skip (assetDot ++ c :: cs) p hbefore]
    exact extract_of_match_at c cs hc
  · exact extract_none_iff s

/-- Witness for the amended C6: a mid-string occurrence in an
`outdir/asset.<64-hex-hash>` path yields the 64-character hash, and a path
with no matching occurrence yields none. -/
theorem c6_extract_hash_amended_witness :
    noMatchBefore
        (assetDot ++ 'f'
          :: "575bdffb1fb794e3010c609b768095d4f1d64e2dca5ce27938971210488a04d".data)
        "outdir/".data = true ∧
    jsDotMatches 'f' = true ∧
    (extractDockerImageHash
        ("outdir/".data ++ (assetDot ++ 'f'
          :: "575bdffb1fb794e3010c609b768095d4f1d64e2dca5ce27938971210488a04d".data))
      = some ('f'
          :: "575bdffb1fb794e3010c609b768095d4f1d64e2dca5ce27938971210488a04d".data.takeWhile
            jsDotMatches) ∧
      (extractDockerImageHash "not-an-asset".data = none ↔
        ∀ q r, "not-an-asset".data = q ++ (assetDot ++ r) →
          r.takeWhile jsDotMatches = [])) :=
  ⟨by decide, by decide,
    c6_extract_hash_amended "outdir/".data 'f'
      "575bdffb1fb794e3010c609b768095d4f1d64e2dca5ce27938971210488a04d".data
      "not-an-asset".data (by decide) (by decide)⟩

/-- C7: when every root child named `manifest.json` is a plain file, deleting
it changes nothing about the computed deletion plan — the run does not fail
without the root manifest, and the reference set is built from the
`*.assets.json` descriptors alone. -/
theorem c7_manifest_optional (t : FSNode) (kh now : Rat)
    (hfiles : rootNamedAllFiles "manifest.json" t = true) :
    computePlan (removeTopNames ["manifest.json"] t) kh now = computePlan t kh now ∧
    ∃ plan, computePlan (removeTopNames ["manifest.json"] t) kh now = .ok plan := by
  have heq := @computePlan_removeTopSingle "manifest.json" (by decide) (by decide)
    t kh now hfiles
  refine ⟨heq, ?_⟩
  rw [heq]
  exact computePlan_ok t kh now

/-- Witness for C7 at a concrete input. -/
theorem c7_manifest_optional_witness :
    rootNamedAllFiles "manifest.json" exTreeC7 = true ∧
    (computePlan (removeTopNames ["manifest.json"] exTreeC7) 0 0
        = computePlan exTreeC7 0 0 ∧
      ∃ plan, computePlan (removeTopNames ["manifest.json"] exTreeC7) 0 0
        = .ok plan) :=
  ⟨by decide, c7_manifest_optional exTreeC7 0 0 (by decide)⟩

/-- C8: the reference-set builder resolves every descriptor source path
relative to the directory containing that descriptor file — the collected
paths are exactly the per-descriptor resolutions — and in the nested tree
`exTreeC8` the upward path `../asset.top` of the nested descriptor resolves
to the top-level `asset.top`. -/
theorem c8_descriptor_relative_resolution :
    (∀ (d : Path) (t : FSNode), collectAssetPaths d t = specReferencePaths d t) ∧
    collectAssetPaths [] exTreeC8 = [["asset.top"]] :=
  ⟨collectAssetPaths_eq_spec, by decide⟩

/-- C9 counterexample: in `exTreeC9` the descriptor protecting `asset.bbb`
lives inside the deleted directory `asset.aaa`; after the first run deletes
its plan, the second run over the resulting filesystem (same options, same
reference time) computes a non-empty plan — refuting the idempotence claim
as stated. -/
theorem c9_idempotence_counterexample :
    computePlan exTreeC9 0 0 = .ok [⟨["asset.aaa"], 1, false⟩] ∧
    computePlan
      (removeTopNames
        (([⟨["asset.aaa"], 1, false⟩] : List PlanItem).map fun i => topName i.path)
        exTreeC9) 0 0
      = .ok [⟨["asset.bbb"], 7, false⟩] ∧
    ([⟨["asset.bbb"], 7, false⟩] : List PlanItem) ≠ [] :=
  ⟨by decide, by decide, by decide⟩

/-- C9 (amended): if deleting the first run's plan does not change the
collected reference set (no asset-descriptor file lay inside a deleted
entry), a second run over the resulting filesystem with the same options and
reference time computes an empty plan. -/
theorem c9_idempotence_amended (t : FSNode) (kh now : Rat)
    (plan1 : List PlanItem)
    (h1 : computePlan t kh now = .ok plan1)
    (hcol : collectAssetPaths []
        (removeTopNames (plan1.map fun i => topName i.path) t)
      = collectAssetPaths [] t) :
    computePlan (removeTopNames (plan1.map fun i => topName i.path) t) kh now
      = .ok [] := by
  have h1b : planItems t (collectAssetPaths [] t) (dockerImageAssetPaths t)
      kh now (assetEntries t) = .ok plan1 := h1
  show planItems (removeTopNames (plan1.map fun i => topName i.path) t)
      (collectAssetPaths [] (removeTopNames (plan1.map fun i => topName i.path) t))
      (dockerImageAssetPaths (removeTopNames (plan1.map fun i => topName i.path) t))
      kh now
      (assetEntries (removeTopNames (plan1.map fun i => topName i.path) t))
    = .ok []
  rw [hcol]
  apply planItems_all_protected
  intro e he2
  have he2b : e ∈ (rootEntries (removeTopNames (plan1.map fun i => topName i.path) t)).filter
      (fun n => nameStartsWith n "asset.") := he2
  rw [rootEntries_removeTopNames] at he2b
  obtain ⟨hroot2, hpe⟩ := List.mem_filter.mp he2b
  obtain ⟨hroot, hq⟩ := List.mem_filter.mp hroot2
  have hnotin : e ∉ plan1.map fun i => topName i.path := by
    intro hmem
    rw [Bool.not_eq_true', decide_eq_false_iff_not] at hq
    exact hq hmem
  have heAsset : e ∈ assetEntries t := List.mem_filter.mpr ⟨hroot, hpe⟩
  have hnot : ∀ item ∈ plan1, item.path ≠ [e] := by
    intro item hitem heq
    refine hnotin ?_
    have hmm : topName item.path ∈ plan1.map fun i => topName i.path :=
      List.mem_map_of_mem (fun i => topName i.path) hitem
    rw [heq] at hmm
    exact hmm
  have hprot := planItems_protected_of_not_planned _ h1b e heAsset hnot
  rw [isProtected_congr (collectAssetPaths [] t) kh now
    (lookup_removeTopNames hnotin [] t)]
  exact hprot

/-- Witness for the amended C9 at a concrete input. -/
theorem c9_idempotence_amended_witness :
    computePlan exTreeC2 0 0 = .ok [⟨["asset.old"], 3, false⟩] ∧
    collectAssetPaths []
        (removeTopNames
          (([⟨["asset.old"], 3, false⟩] : List PlanItem).map fun i => topName i.path)
          exTreeC2)
      = collectAssetPaths [] exTreeC2 ∧
    computePlan
        (removeTopNames
          (([⟨["asset.old"], 3, false⟩] : List PlanItem).map fun i => topName i.path)
          exTreeC2) 0 0
      = .ok [] :=
  ⟨by decide, by decide,
    c9_idempotence_amended exTreeC2 0 0 _ (by decide) (by decide)⟩

/-- C10: the size calculator returns the byte length of a regular file, the
sum of the sizes of a directory's entries (0 for an empty directory), and 0
for any other node kind, without failing. -/
theorem c10_calculate_size :
    (∀ (sz : Nat) (mt : Rat) (doc : Option AssetsDoc),
        calculateSize (.file sz mt doc) = sz) ∧
    (∀ (mt : Rat) (es : FSEntries),
        calculateSize (.dir mt es)
          = ((entriesToList es).map fun e => calculateSize e.2).sum) ∧
    (∀ mt : Rat, calculateSize (.dir mt .nil) = 0) ∧
    (∀ mt : Rat, calculateSize (.other mt) = 0) :=
  ⟨fun _ _ _ => rfl, fun _ es => sizeOfEntries_eq_sum es, fun _ => rfl, fun _ => rfl⟩

end CdkAgc
